/-
Verification of the scanline pocket-filling engine of GCAM
(src/libgcode/gcode_pocket.c) against its natural-language specification.

The development shallowly embeds the three operations of the engine:
  * gcode_pocket_prep     - scanline interval acquisition,
  * gcode_pocket_subtract - row-by-row island subtraction,
  * gcode_pocket_make     - zig-zag motion sequencing,
over exact rational arithmetic (the C code computes with gfloat_t; the
claims under study concern the interval algebra and event sequencing,
which are modelled exactly over ℚ).

Machine integers do not occur in the modelled fragment; list lengths are
natural numbers.  The C structures gcode_pocket_t / gcode_pocket_row_t
become the structures Pocket / PocketRow below, with row_num and line_num
represented by list lengths.
-/
import Mathlib

/-- Modelled from the spec: the constant GCODE_PRECISION of gcode_math.h is
not part of the sources under verification; the spec describes it only as a
fixed epsilon used for tolerant comparisons ("remove duplicates within a
fixed epsilon", "within numeric precision").  It is modelled as a fixed
positive rational; none of the results below depend on its exact value. -/
def GCODE_PRECISION : ℚ := 1 / 10000

/-- One scanline of a pocket: y-coordinate plus the interval list
(gcode_pocket_row_t: the y field and line_array with line_num entries). -/
structure PocketRow where
  y : ℚ
  line_array : List (ℚ × ℚ)
deriving DecidableEq, Repr

/-- A pocket grid (gcode_pocket_t): resolution, rows, and the running
segment count seg_num maintained by gcode_pocket_prep. -/
structure Pocket where
  resolution : ℚ
  row_array : List PocketRow
  seg_num : ℕ
deriving DecidableEq, Repr

/-- Default row used with List.getD when stating indexed properties. -/
def dfltRow : PocketRow := { y := 0, line_array := [] }

/-!
## gcode_pocket_subtract (gcode_pocket.c lines 210-274)

Per row i of pocket_a, the outer loop walks the (growing) line list; for the
current line, the inner loop walks every line of pocket_b's row i.  CASE 1
(epsilon-tolerant containment) splits the current line, finalises the left
part at its slot and continues with the inserted right part (the code does
j++ inside the inner loop); CASE 2 / CASE 3 trim the current line in place.
subLine is that inner loop expressed as a fold over pocket_b's lines with
the current line as state, emitting the finalised left parts.
-/

/-- The inner loop of gcode_pocket_subtract acting on one current line `a`
of pocket_a and the remaining lines `bs` of pocket_b's same row. -/
def subLine : ℚ × ℚ → List (ℚ × ℚ) → List (ℚ × ℚ)
  | a, [] => [a]
  | a, b :: bs =>
    if b.1 + GCODE_PRECISION ≥ a.1 ∧ b.1 - GCODE_PRECISION ≤ a.2 ∧
       b.2 + GCODE_PRECISION ≥ a.1 ∧ b.2 - GCODE_PRECISION ≤ a.2 then
      (a.1, b.1) :: subLine (b.2, a.2) bs
    else if b.1 > a.1 ∧ b.1 < a.2 then
      subLine (a.1, b.1) bs
    else if b.2 > a.1 ∧ b.2 < a.2 then
      subLine (b.2, a.2) bs
    else
      subLine a bs

/-- One row of gcode_pocket_subtract: every line of pocket_a's row is
processed by the inner loop against pocket_b's row; the shifted insertions
of CASE 1 keep the relative order, so the resulting line_array is the
concatenation of the per-line results. -/
def subRow (as bs : List (ℚ × ℚ)) : List (ℚ × ℚ) :=
  as.flatMap (fun a => subLine a bs)

/-- gcode_pocket_subtract: pocket_b's row i is read for pocket_a's row
index i (the C code performs no structural validation; rows are paired
positionally, which List.zip renders exactly when the row counts agree). -/
def gcode_pocket_subtract (pocket_a pocket_b : Pocket) : Pocket :=
  { pocket_a with
    row_array := (pocket_a.row_array.zip pocket_b.row_array).map
      (fun pr => { y := pr.1.y, line_array := subRow pr.1.line_array pr.2.line_array }) }

/-!
## gcode_pocket_prep (gcode_pocket.c lines 52-124)
-/

/-- The consecutive pairing (0,1),(2,3),... of the sorted crossing list;
the loop `for (i = 0; i + 1 < x_index; i += 2)` drops a trailing unpaired
crossing. -/
def evenPairs : List ℚ → List (ℚ × ℚ)
  | a :: b :: rest => (a, b) :: evenPairs rest
  | _ => []

/-- The line-generation loop of gcode_pocket_prep for one scanline, acting
on the sorted, deduplicated crossing list: a pair is kept exactly when
fabs(x[i+1] - x[i]) > tool->diameter, stored nudged inward by 10% of the
tool diameter on each side, incrementing line_num and seg_num. -/
def prepRow (diameter : ℚ) : List ℚ → List (ℚ × ℚ)
  | a :: b :: rest =>
    (if |b - a| > diameter then [(a + diameter / 10, b - diameter / 10)] else []) ++
      prepRow diameter rest
  | _ => []

/-- Modelled from the spec: gcode_util_remove_duplicate_scalars
(gcode_util.c is not part of the sources under verification); the spec says
"Sort ascending; remove duplicates within a fixed epsilon". -/
def removeDuplicateScalars : List ℚ → List ℚ
  | [] => []
  | [a] => [a]
  | a :: b :: rest =>
    if |b - a| ≤ GCODE_PRECISION then removeDuplicateScalars (a :: rest)
    else a :: removeDuplicateScalars (b :: rest)

/-- gcode_pocket_prep.  The pooled per-scanline crossing evaluation of the
block chain (each block's eval, outside this engine) is taken as a function
crossings : y → list of x, per the spec's external interface crossingsAt.
The scanline loop runs y from -material_origin_y in steps of resolution
while y ≤ material_size_y - material_origin_y; for resolution > 0 and
material_size_y ≥ 0 its trip count is floor(size/res) + 1 (the C loop does
not terminate otherwise).  qsort with the ascending comparator is modelled
by insertion sort over ℚ. -/
def gcode_pocket_prep (resolution : ℚ) (crossings : ℚ → List ℚ) (diameter : ℚ)
    (material_size_y material_origin_y : ℚ) : Pocket :=
  let nRows : ℕ :=
    if 0 < resolution ∧ 0 ≤ material_size_y then
      (material_size_y / resolution).floor.toNat + 1
    else 0
  let mkRow : ℕ → PocketRow := fun i =>
    let yv := -material_origin_y + (i : ℚ) * resolution
    { y := yv
      line_array :=
        prepRow diameter
          (removeDuplicateScalars (List.insertionSort (fun u v => u ≤ v) (crossings yv))) }
  { resolution := resolution
    row_array := (List.range nRows).map mkRow
    seg_num := (((List.range nRows).map mkRow).map (fun r => r.line_array.length)).sum }

/-!
## gcode_pocket_make (gcode_pocket.c lines 126-208)
-/

/-- Modelled from the spec: the emission macros GCODE_COMMENT,
GCODE_RETRACT, GCODE_2D_MOVE, GCODE_PLUMMET, GCODE_DESCEND, GCODE_2D_LINE
(gcode.h is not part of the sources under verification) append serialized
text to the block; the spec describes the sink as an ordered stream of
typed events - comment, retract-to, rapid-move-to, rapid-plunge-to,
feed-descend-to, feed-line-to - which this type renders.  The pass-depth
comment is represented by the depth it reports. -/
inductive GEvent where
  | comment (depth : ℚ)
  | retract (z : ℚ)
  | move2d (x y : ℚ)
  | plummet (z : ℚ)
  | descend (z : ℚ)
  | line2d (x y : ℚ)
deriving DecidableEq, Repr

/-- The per-interval approach sequence of gcode_pocket_make: retract to the
traverse height, rapid 2-D move to the entry endpoint at the row's y,
rapid plunge exactly when rapid_depth ≥ depth - GCODE_PRECISION, then feed
descend to the target depth. -/
def approachEvents (ztraverse depth rapid_depth yrow xnear : ℚ) : List GEvent :=
  [GEvent.retract ztraverse, GEvent.move2d xnear yrow] ++
    (if rapid_depth ≥ depth - GCODE_PRECISION then [GEvent.plummet rapid_depth] else []) ++
    [GEvent.descend depth]

/-- The full event block emitted for one retained interval: the approach
sequence followed by the straight cut to the far endpoint at the same y. -/
def cutBlockEvents (ztraverse depth rapid_depth yrow xnear xfar : ℚ) : List GEvent :=
  approachEvents ztraverse depth rapid_depth yrow xnear ++ [GEvent.line2d xfar yrow]

/-- One row of gcode_pocket_make: even row index walks line_array left to
right entering at line[j][0]; odd walks it right to left entering at
line[j][1]; intervals with fabs(line[j][0] - line[j][1]) < diameter are
skipped. -/
def rowEvents (ztraverse depth rapid_depth diameter : ℚ) (i : ℕ) (row : PocketRow) :
    List GEvent :=
  if i % 2 = 0 then
    row.line_array.flatMap (fun l =>
      if |l.1 - l.2| < diameter then []
      else cutBlockEvents ztraverse depth rapid_depth row.y l.1 l.2)
  else
    row.line_array.reverse.flatMap (fun l =>
      if |l.1 - l.2| < diameter then []
      else cutBlockEvents ztraverse depth rapid_depth row.y l.2 l.1)

/-- gcode_pocket_make: nothing at all when seg_num = 0; otherwise the
pass-depth comment, the rows in index order, and one final retract.  The
raw newline appends are serialization padding, not events of the sink. -/
def gcode_pocket_make (pocket : Pocket) (depth rapid_depth diameter ztraverse : ℚ) :
    List GEvent :=
  if pocket.seg_num = 0 then []
  else
    GEvent.comment depth ::
      (pocket.row_array.enum.flatMap
        (fun ir => rowEvents ztraverse depth rapid_depth diameter ir.1 ir.2) ++
       [GEvent.retract ztraverse])

/-!
## Derived notions used by the claims
-/

/-- The set of points covered by one interval, {x | xStart ≤ x ≤ xEnd}
(empty when xStart > xEnd). -/
def cov (l : ℚ × ℚ) : Set ℚ := Set.Icc l.1 l.2

/-- The union of the point sets covered by a row's intervals. -/
def rowCov (ls : List (ℚ × ℚ)) : Set ℚ := {x | ∃ l ∈ ls, x ∈ cov l}

/-- Consecutive intervals of a row are ordered and do not overlap:
each interval ends no later than the next begins. -/
def rowChained (ls : List (ℚ × ℚ)) : Prop :=
  List.Chain' (fun p q => p.2 ≤ q.1) ls

/-- The interval-row invariant: ordered, mutually non-overlapping, and
every interval satisfies xStart ≤ xEnd. -/
def rowWellFormed (ls : List (ℚ × ℚ)) : Prop :=
  rowChained ls ∧ ∀ l ∈ ls, l.1 ≤ l.2

instance (ls : List (ℚ × ℚ)) : Decidable (rowChained ls) := by
  unfold rowChained; infer_instance

instance (ls : List (ℚ × ℚ)) : Decidable (rowWellFormed ls) := by
  unfold rowWellFormed; exact instDecidableAnd

/-- Every endpoint of an island interval that lies within the
GCODE_PRECISION tolerance band of a pocket interval lies inside that
interval: the tolerant containment test of CASE 1 then coincides with true
containment. -/
def BEndpointsExact (as bs : List (ℚ × ℚ)) : Prop :=
  ∀ b ∈ bs, ∀ u ∈ as,
    ((u.1 - GCODE_PRECISION ≤ b.1 ∧ b.1 ≤ u.2 + GCODE_PRECISION) → u.1 ≤ b.1 ∧ b.1 ≤ u.2) ∧
    ((u.1 - GCODE_PRECISION ≤ b.2 ∧ b.2 ≤ u.2 + GCODE_PRECISION) → u.1 ≤ b.2 ∧ b.2 ≤ u.2)

instance (as bs : List (ℚ × ℚ)) : Decidable (BEndpointsExact as bs) := by
  unfold BEndpointsExact; infer_instance

/-!
## Basic facts about the embedding
-/

theorem GCODE_PRECISION_pos : 0 < GCODE_PRECISION := by norm_num [GCODE_PRECISION]

theorem mem_rowCov {x : ℚ} {ls : List (ℚ × ℚ)} :
    x ∈ rowCov ls ↔ ∃ l ∈ ls, l.1 ≤ x ∧ x ≤ l.2 := by
  simp [rowCov, cov, Set.mem_setOf_eq]

theorem rowCov_nil : rowCov [] = ∅ := by
  ext x; simp [mem_rowCov]

/-- Coverage of a line list processed by the inner subtraction loop stays
inside any positional bound that encloses the current line, provided the
island endpoints that pass the tolerant test lie truly inside the bound. -/
theorem subLine_cov (u0 u1 : ℚ) :
    ∀ (bs : List (ℚ × ℚ)) (c0 c1 : ℚ), u0 ≤ c0 → c1 ≤ u1 →
      (∀ b ∈ bs,
        ((u0 - GCODE_PRECISION ≤ b.1 ∧ b.1 ≤ u1 + GCODE_PRECISION) → u0 ≤ b.1 ∧ b.1 ≤ u1) ∧
        ((u0 - GCODE_PRECISION ≤ b.2 ∧ b.2 ≤ u1 + GCODE_PRECISION) → u0 ≤ b.2 ∧ b.2 ≤ u1)) →
      rowCov (subLine (c0, c1) bs) ⊆ Set.Icc u0 u1 := by
  intro bs
  induction bs with
  | nil =>
    intro c0 c1 h0 h1 _ x hx
    rw [mem_rowCov] at hx
    obtain ⟨l, hl, hx1, hx2⟩ := hx
    simp [subLine] at hl
    subst hl
    exact ⟨le_trans h0 hx1, le_trans hx2 h1⟩
  | cons b bs ih =>
    intro c0 c1 h0 h1 hb x hx
    have hbb := hb b (List.mem_cons_self b bs)
    have hbs : ∀ b' ∈ bs,
        ((u0 - GCODE_PRECISION ≤ b'.1 ∧ b'.1 ≤ u1 + GCODE_PRECISION) → u0 ≤ b'.1 ∧ b'.1 ≤ u1) ∧
        ((u0 - GCODE_PRECISION ≤ b'.2 ∧ b'.2 ≤ u1 + GCODE_PRECISION) → u0 ≤ b'.2 ∧ b'.2 ≤ u1) :=
      fun b' hb' => hb b' (List.mem_cons_of_mem b hb')
    rw [subLine] at hx
    split_ifs at hx with hc1 hc2 hc3
    · -- CASE 1: epsilon-tolerant containment
      obtain ⟨ha1, ha2, ha3, ha4⟩ := hc1
      have hb1 : u0 ≤ b.1 ∧ b.1 ≤ u1 := by
        refine hbb.1 ⟨?_, ?_⟩
        · linarith
        · linarith
      have hb2 : u0 ≤ b.2 ∧ b.2 ≤ u1 := by
        refine hbb.2 ⟨?_, ?_⟩
        · linarith
        · linarith
      rw [mem_rowCov] at hx
      obtain ⟨l, hl, hx1, hx2⟩ := hx
      rcases List.mem_cons.mp hl with hl | hl
      · subst hl
        exact ⟨le_trans h0 hx1, le_trans hx2 hb1.2⟩
      · exact ih b.2 c1 hb2.1 h1 hbs (mem_rowCov.mpr ⟨l, hl, hx1, hx2⟩)
    · -- CASE 2: right overlap trims the end
      exact ih c0 b.1 h0 (le_trans (le_of_lt hc2.2) h1) hbs hx
    · -- CASE 3: left overlap trims the start
      exact ih b.2 c1 (le_trans h0 (le_of_lt hc3.1)) h1 hbs hx
    · exact ih c0 c1 h0 h1 hbs hx

/-- A subtracted row covers no point outside the original row. -/
theorem subRow_cov (as bs : List (ℚ × ℚ)) (hb : BEndpointsExact as bs) :
    rowCov (subRow as bs) ⊆ rowCov as := by
  intro x hx
  rw [mem_rowCov] at hx
  obtain ⟨l, hl, hx1, hx2⟩ := hx
  rw [subRow, List.mem_flatMap] at hl
  obtain ⟨a, ha, hla⟩ := hl
  have hsub : rowCov (subLine (a.1, a.2) bs) ⊆ Set.Icc a.1 a.2 := by
    refine subLine_cov a.1 a.2 bs a.1 a.2 le_rfl le_rfl ?_
    intro b' hb'
    exact hb b' hb' a ha
  have hxa : x ∈ Set.Icc a.1 a.2 := by
    refine hsub (mem_rowCov.mpr ⟨l, ?_, hx1, hx2⟩)
    simpa using hla
  exact mem_rowCov.mpr ⟨a, ha, hxa.1, hxa.2⟩

/-- Indexing the zipped, mapped row list of the subtraction result. -/
theorem subtract_row_getD :
    ∀ (l1 l2 : List PocketRow) (i : ℕ), i < l1.length → i < l2.length →
      ((l1.zip l2).map
        (fun pr => { y := pr.1.y, line_array := subRow pr.1.line_array pr.2.line_array :
          PocketRow })).getD i dfltRow =
      { y := (l1.getD i dfltRow).y,
        line_array := subRow (l1.getD i dfltRow).line_array (l2.getD i dfltRow).line_array } := by
  intro l1
  induction l1 with
  | nil => intro l2 i h1 _; simp at h1
  | cons a l1 ih =>
    intro l2 i h1 h2
    cases l2 with
    | nil => simp at h2
    | cons b l2 =>
      cases i with
      | zero => simp [List.getD]
      | succ n =>
        have h1' : n < l1.length := by simpa using h1
        have h2' : n < l2.length := by simpa using h2
        simpa [List.getD] using ih l2 n h1' h2'

/-- Beyond the zipped length the subtraction result yields the default row. -/
theorem subtract_row_getD_default (pa pb : Pocket)
    (hlen : pa.row_array.length = pb.row_array.length) (i : ℕ)
    (h : ¬ i < pa.row_array.length) :
    (gcode_pocket_subtract pa pb).row_array.getD i dfltRow = dfltRow := by
  refine List.getD_eq_default _ _ ?_
  simp [gcode_pocket_subtract, List.length_zip, ← hlen]
  omega

/-- C1 (amended): with row-aligned grids, whenever every island endpoint
that lies within the GCODE_PRECISION tolerance band of a pocket interval of
the same row lies truly inside that interval, gcode_pocket_subtract never
increases coverage: for every row index, the union of the points covered by
grid A's intervals after the call is a subset of the union covered before.
(The unrestricted claim fails: the tolerant CASE 1 test can fire for an
island endpoint up to GCODE_PRECISION outside the pocket interval and
extend it; see the counterexample.) -/
theorem gcode_pocket_subtract_never_increases_coverage (pa pb : Pocket)
    (hlen : pa.row_array.length = pb.row_array.length)
    (hb : ∀ i, i < pa.row_array.length →
      BEndpointsExact (pa.row_array.getD i dfltRow).line_array
        (pb.row_array.getD i dfltRow).line_array) :
    ∀ i, rowCov (((gcode_pocket_subtract pa pb).row_array.getD i dfltRow).line_array) ⊆
      rowCov ((pa.row_array.getD i dfltRow).line_array) := by
  intro i
  by_cases h : i < pa.row_array.length
  · have h2 : i < pb.row_array.length := hlen ▸ h
    have hrow := subtract_row_getD pa.row_array pb.row_array i h h2
    show rowCov (((pa.row_array.zip pb.row_array).map _).getD i dfltRow).line_array ⊆ _
    rw [hrow]
    exact subRow_cov _ _ (hb i h)
  · rw [subtract_row_getD_default pa pb hlen i h]
    intro x hx
    rw [dfltRow, mem_rowCov] at hx
    obtain ⟨l, hl, -⟩ := hx
    simp at hl

/-- Pocket grid used to refute the unrestricted coverage claim. -/
def c1PocketA : Pocket :=
  { resolution := 1, row_array := [{ y := 0, line_array := [(0, 10)] }], seg_num := 1 }

/-- Island grid whose single degenerate interval sits within GCODE_PRECISION
beyond the end of c1PocketA's interval. -/
def c1PocketB : Pocket :=
  { resolution := 1,
    row_array := [{ y := 0, line_array := [(200001 / 20000, 200001 / 20000)] }],
    seg_num := 1 }

theorem c1_subtract_eval :
    ((gcode_pocket_subtract c1PocketA c1PocketB).row_array.getD 0 dfltRow).line_array =
      [(0, 200001 / 20000), (200001 / 20000, 10)] := by
  norm_num [gcode_pocket_subtract, subRow, subLine, GCODE_PRECISION, c1PocketA, c1PocketB,
    List.getD]

/-- C1 counterexample: the grids have equal row counts, yet after the call
row 0 covers the point 400001/40000 = 10.000025, which the row did not
cover before - coverage increased. -/
theorem c1_counterexample :
    c1PocketA.row_array.length = c1PocketB.row_array.length ∧
    ¬ rowCov (((gcode_pocket_subtract c1PocketA c1PocketB).row_array.getD 0 dfltRow).line_array) ⊆
      rowCov ((c1PocketA.row_array.getD 0 dfltRow).line_array) := by
  refine ⟨rfl, ?_⟩
  intro hsub
  have hmem : (400001 / 40000 : ℚ) ∈
      rowCov (((gcode_pocket_subtract c1PocketA c1PocketB).row_array.getD 0 dfltRow).line_array) := by
    rw [c1_subtract_eval, mem_rowCov]
    refine ⟨(0, 200001 / 20000), by simp, by norm_num, by norm_num⟩
  have hout := hsub hmem
  rw [mem_rowCov] at hout
  obtain ⟨l, hl, h1, h2⟩ := hout
  simp [c1PocketA, List.getD] at hl
  subst hl
  norm_num at h2

/-- C1 witness: the amended theorem applied to a concrete aligned pair with
a truly contained island interval. -/
theorem c1_witness :
    (c1PocketA.row_array.length =
      (Pocket.mk 1 [{ y := 0, line_array := [(2, 3)] }] 1).row_array.length ∧
     ∀ i, i < c1PocketA.row_array.length →
      BEndpointsExact (c1PocketA.row_array.getD i dfltRow).line_array
        (((Pocket.mk 1 [{ y := 0, line_array := [(2, 3)] }] 1)).row_array.getD i dfltRow).line_array) ∧
    ∀ i, rowCov (((gcode_pocket_subtract c1PocketA
        (Pocket.mk 1 [{ y := 0, line_array := [(2, 3)] }] 1)).row_array.getD i dfltRow).line_array) ⊆
      rowCov ((c1PocketA.row_array.getD i dfltRow).line_array) := by
  refine ⟨⟨rfl, ?_⟩, ?_⟩
  · intro i hi
    have hi0 : i = 0 := by simpa [c1PocketA] using hi
    subst hi0
    intro b hb u hu
    simp [c1PocketA, List.getD] at hb hu
    subst hb; subst hu
    norm_num [GCODE_PRECISION]
  · refine gcode_pocket_subtract_never_increases_coverage _ _ rfl ?_
    intro i hi
    have hi0 : i = 0 := by simpa [c1PocketA] using hi
    subst hi0
    intro b hb u hu
    simp [c1PocketA, List.getD] at hb hu
    subst hb; subst hu
    norm_num [GCODE_PRECISION]

/-- C2: when an island interval b passes the epsilon-tolerant containment
test against the current pocket interval a, the interval is split into
(a.start, b.start) and (b.end, a.end), the second part continuing in place
right after the first (the code shifts the tail up and inserts at j + 1),
and the row's interval count for this comparison is one more than the count
produced by the continuation - line_num grows by exactly one per
fully-contained island interval. -/
theorem gcode_pocket_subtract_full_containment_split (a b : ℚ × ℚ) (bs : List (ℚ × ℚ))
    (h : b.1 + GCODE_PRECISION ≥ a.1 ∧ b.1 - GCODE_PRECISION ≤ a.2 ∧
         b.2 + GCODE_PRECISION ≥ a.1 ∧ b.2 - GCODE_PRECISION ≤ a.2) :
    subLine a (b :: bs) = (a.1, b.1) :: subLine (b.2, a.2) bs ∧
    (subLine a (b :: bs)).length = (subLine (b.2, a.2) bs).length + 1 := by
  have heq : subLine a (b :: bs) = (a.1, b.1) :: subLine (b.2, a.2) bs := by
    rw [subLine]
    exact if_pos h
  exact ⟨heq, by rw [heq]; simp⟩

/-- C2 witness: the split at a concrete fully-contained island interval. -/
theorem gcode_pocket_subtract_full_containment_split_witness :
    ((2 : ℚ) + GCODE_PRECISION ≥ 0 ∧ (2 : ℚ) - GCODE_PRECISION ≤ 10 ∧
     (3 : ℚ) + GCODE_PRECISION ≥ 0 ∧ (3 : ℚ) - GCODE_PRECISION ≤ 10) ∧
    (subLine (0, 10) [(2, 3)] = (0, 2) :: subLine (3, 10) [] ∧
     (subLine (0, 10) [(2, 3)]).length = (subLine (3, 10) []).length + 1) := by
  refine ⟨by norm_num [GCODE_PRECISION], ?_⟩
  exact gcode_pocket_subtract_full_containment_split (0, 10) (2, 3) []
    (by norm_num [GCODE_PRECISION])

/-!
## Row invariants under subtraction (C3)
-/

theorem subLine_ne_nil : ∀ (bs : List (ℚ × ℚ)) (a : ℚ × ℚ), subLine a bs ≠ [] := by
  intro bs
  induction bs with
  | nil => intro a; simp [subLine]
  | cons b bs ih =>
    intro a
    rw [subLine]
    split_ifs with h1 h2 h3
    · simp
    · exact ih (a.1, b.1)
    · exact ih (b.2, a.2)
    · exact ih a

/-- The first interval produced for a line starts no earlier than the line
itself. -/
theorem subLine_head_start : ∀ (bs : List (ℚ × ℚ)) (a : ℚ × ℚ) (x : ℚ × ℚ),
    (subLine a bs).head? = some x → a.1 ≤ x.1 := by
  intro bs
  induction bs with
  | nil =>
    intro a x hx
    simp [subLine] at hx
    subst hx
    exact le_rfl
  | cons b bs ih =>
    intro a x hx
    rw [subLine] at hx
    split_ifs at hx with h1 h2 h3
    · simp at hx
      subst hx
      exact le_rfl
    · exact ih (a.1, b.1) x hx
    · exact le_trans (le_of_lt h3.1) (ih (b.2, a.2) x hx)
    · exact ih a x hx

/-- The last interval produced for a line ends no later than the line
itself. -/
theorem subLine_last_end : ∀ (bs : List (ℚ × ℚ)) (a : ℚ × ℚ) (x : ℚ × ℚ),
    (subLine a bs).getLast? = some x → x.2 ≤ a.2 := by
  intro bs
  induction bs with
  | nil =>
    intro a x hx
    simp [subLine] at hx
    subst hx
    exact le_rfl
  | cons b bs ih =>
    intro a x hx
    rw [subLine] at hx
    split_ifs at hx with h1 h2 h3
    · obtain ⟨z, zs, hz⟩ := List.exists_cons_of_ne_nil (subLine_ne_nil bs (b.2, a.2))
      rw [hz, List.getLast?_cons_cons] at hx
      exact ih (b.2, a.2) x (by rw [hz]; exact hx)
    · exact le_trans (ih (a.1, b.1) x hx) (le_of_lt h2.2)
    · exact ih (b.2, a.2) x hx
    · exact ih a x hx

/-- With well-formed island intervals, the inner loop keeps a line's output
ordered and non-overlapping: each produced interval ends no later than the
next begins. -/
theorem subLine_chain : ∀ (bs : List (ℚ × ℚ)) (a : ℚ × ℚ),
    (∀ b ∈ bs, b.1 ≤ b.2) → rowChained (subLine a bs) := by
  intro bs
  induction bs with
  | nil => intro a _; simp [subLine, rowChained]
  | cons b bs ih =>
    intro a hb
    have hbb : b.1 ≤ b.2 := hb b (List.mem_cons_self b bs)
    have hbs : ∀ b' ∈ bs, b'.1 ≤ b'.2 := fun b' h => hb b' (List.mem_cons_of_mem b h)
    rw [subLine]
    split_ifs with h1 h2 h3
    · rw [rowChained, List.chain'_cons']
      refine ⟨?_, ih (b.2, a.2) hbs⟩
      intro z hz
      exact le_trans hbb (subLine_head_start bs (b.2, a.2) z hz)
    · exact ih (a.1, b.1) hbs
    · exact ih (b.2, a.2) hbs
    · exact ih a hbs

/-- Every interval the inner loop produces is inverted by at most
GCODE_PRECISION, provided the incoming line is. -/
theorem subLine_inverted_bound : ∀ (bs : List (ℚ × ℚ)) (a : ℚ × ℚ),
    a.1 ≤ a.2 + GCODE_PRECISION →
    ∀ l ∈ subLine a bs, l.1 ≤ l.2 + GCODE_PRECISION := by
  intro bs
  induction bs with
  | nil =>
    intro a ha l hl
    simp [subLine] at hl
    subst hl
    exact ha
  | cons b bs ih =>
    intro a ha l hl
    have hpos := GCODE_PRECISION_pos
    rw [subLine] at hl
    split_ifs at hl with h1 h2 h3
    · rcases List.mem_cons.mp hl with hl | hl
      · subst hl
        show a.1 ≤ b.1 + GCODE_PRECISION
        linarith [h1.1]
      · refine ih (b.2, a.2) ?_ l hl
        show b.2 ≤ a.2 + GCODE_PRECISION
        linarith [h1.2.2.2]
    · refine ih (a.1, b.1) ?_ l hl
      show a.1 ≤ b.1 + GCODE_PRECISION
      linarith [h2.1]
    · refine ih (b.2, a.2) ?_ l hl
      show b.2 ≤ a.2 + GCODE_PRECISION
      linarith [h3.2]
    · exact ih a ha l hl

/-- A whole row stays ordered and non-overlapping under subtraction when
both rows were well formed. -/
theorem subRow_chain (as bs : List (ℚ × ℚ)) (ha : rowWellFormed as)
    (hb : ∀ b ∈ bs, b.1 ≤ b.2) : rowChained (subRow as bs) := by
  induction as with
  | nil => simp [subRow, rowChained]
  | cons a as ih =>
    have hatail : rowWellFormed as := by
      refine ⟨?_, fun l hl => ha.2 l (List.mem_cons_of_mem a hl)⟩
      have := ha.1
      rw [rowChained] at this ⊢
      exact this.tail
    have hflat : subRow (a :: as) bs = subLine a bs ++ subRow as bs := by
      simp [subRow]
    rw [hflat, rowChained, List.chain'_append]
    refine ⟨subLine_chain bs a hb, ih hatail, ?_⟩
    intro x hx y hy
    have hxa : x.2 ≤ a.2 := subLine_last_end bs a x hx
    cases as with
    | nil => simp [subRow] at hy
    | cons a2 as2 =>
      have hy2 : y ∈ (subLine a2 bs).head? := by
        have hflat2 : subRow (a2 :: as2) bs = subLine a2 bs ++ subRow as2 bs := by
          simp [subRow]
        rw [hflat2, List.head?_append] at hy
        obtain ⟨z, zs, hz⟩ := List.exists_cons_of_ne_nil (subLine_ne_nil bs a2)
        rw [hz] at hy ⊢
        simpa using hy
      have hya : a2.1 ≤ y.1 := subLine_head_start bs a2 y hy2
      have haa : a.2 ≤ a2.1 := by
        have := ha.1
        rw [rowChained, List.chain'_cons] at this
        exact this.1
      exact le_trans hxa (le_trans haa hya)

/-- C3 (amended): after gcode_pocket_subtract, every row of grid A is still
ordered left to right with mutually non-overlapping intervals (each
interval ends no later than the next begins), and every interval satisfies
xStart ≤ xEnd + GCODE_PRECISION - for row-aligned grids whose rows
satisfied the invariant before the call.  The exact xStart ≤ xEnd clause of
the invariant is not preserved: the tolerant CASE 1 test can emit an
interval inverted by up to GCODE_PRECISION (see the counterexample). -/
theorem gcode_pocket_subtract_row_invariant (pa pb : Pocket)
    (hlen : pa.row_array.length = pb.row_array.length)
    (ha : ∀ r ∈ pa.row_array, rowWellFormed r.line_array)
    (hb : ∀ r ∈ pb.row_array, rowWellFormed r.line_array) :
    ∀ r ∈ (gcode_pocket_subtract pa pb).row_array,
      rowChained r.line_array ∧ ∀ l ∈ r.line_array, l.1 ≤ l.2 + GCODE_PRECISION := by
  intro r hr
  rw [gcode_pocket_subtract] at hr
  simp only [List.mem_map] at hr
  obtain ⟨pr, hpr, rfl⟩ := hr
  obtain ⟨h1, h2⟩ := List.of_mem_zip hpr
  constructor
  · exact subRow_chain _ _ (ha _ h1) (fun b hbmem => (hb _ h2).2 b hbmem)
  · intro l hl
    simp only [subRow, List.mem_flatMap] at hl
    obtain ⟨a, hamem, hla⟩ := hl
    refine subLine_inverted_bound _ a ?_ l hla
    have := (ha _ h1).2 a hamem
    linarith [GCODE_PRECISION_pos]

/-- Pocket grid used to refute the exact invariant-preservation claim. -/
def c3PocketA : Pocket :=
  { resolution := 1, row_array := [{ y := 0, line_array := [(0, 10)] }], seg_num := 1 }

/-- Island grid whose interval is valid but ends within GCODE_PRECISION
beyond the end of c3PocketA's interval. -/
def c3PocketB : Pocket :=
  { resolution := 1, row_array := [{ y := 0, line_array := [(5, 200001 / 20000)] }],
    seg_num := 1 }

theorem c3_subtract_eval :
    ((gcode_pocket_subtract c3PocketA c3PocketB).row_array.getD 0 dfltRow).line_array =
      [(0, 5), (200001 / 20000, 10)] := by
  norm_num [gcode_pocket_subtract, subRow, subLine, GCODE_PRECISION, c3PocketA, c3PocketB,
    List.getD]

/-- C3 counterexample: both grids are row-aligned and satisfy the row
invariant beforehand, yet after the call row 0 holds the interval
(200001/20000, 10) whose start 10.00005 exceeds its end 10 - the invariant
clause xStart ≤ xEnd fails. -/
theorem c3_counterexample :
    c3PocketA.row_array.length = c3PocketB.row_array.length ∧
    (∀ r ∈ c3PocketA.row_array, rowWellFormed r.line_array) ∧
    (∀ r ∈ c3PocketB.row_array, rowWellFormed r.line_array) ∧
    ((gcode_pocket_subtract c3PocketA c3PocketB).row_array.getD 0 dfltRow).line_array =
      [(0, 5), (200001 / 20000, 10)] ∧
    ¬ rowWellFormed
      ((gcode_pocket_subtract c3PocketA c3PocketB).row_array.getD 0 dfltRow).line_array := by
  refine ⟨rfl, ?_, ?_, c3_subtract_eval, ?_⟩
  · intro r hr
    simp [c3PocketA] at hr
    subst hr
    refine ⟨by simp [rowChained], ?_⟩
    intro l hl
    simp at hl
    subst hl
    norm_num
  · intro r hr
    simp [c3PocketB] at hr
    subst hr
    refine ⟨by simp [rowChained], ?_⟩
    intro l hl
    simp at hl
    subst hl
    norm_num
  · intro hwf
    have := hwf.2 (200001 / 20000, 10) (by rw [c3_subtract_eval]; simp)
    norm_num at this

/-- C3 witness: the amended theorem applied to a concrete row-aligned,
well-formed pair of grids. -/
theorem gcode_pocket_subtract_row_invariant_witness :
    ((Pocket.mk 1 [{ y := 0, line_array := [(0, 10)] }] 1).row_array.length =
      (Pocket.mk 1 [{ y := 0, line_array := [(2, 3)] }] 1).row_array.length ∧
     (∀ r ∈ (Pocket.mk 1 [{ y := 0, line_array := [(0, 10)] }] 1).row_array,
        rowWellFormed r.line_array) ∧
     (∀ r ∈ (Pocket.mk 1 [{ y := 0, line_array := [(2, 3)] }] 1).row_array,
        rowWellFormed r.line_array)) ∧
    ∀ r ∈ (gcode_pocket_subtract (Pocket.mk 1 [{ y := 0, line_array := [(0, 10)] }] 1)
        (Pocket.mk 1 [{ y := 0, line_array := [(2, 3)] }] 1)).row_array,
      rowChained r.line_array ∧ ∀ l ∈ r.line_array, l.1 ≤ l.2 + GCODE_PRECISION := by
  have hwa : ∀ r ∈ (Pocket.mk 1 [{ y := 0, line_array := [(0, 10)] }] 1).row_array,
      rowWellFormed r.line_array := by
    intro r hr
    simp at hr
    subst hr
    exact ⟨by simp [rowChained], by intro l hl; simp at hl; subst hl; norm_num⟩
  have hwb : ∀ r ∈ (Pocket.mk 1 [{ y := 0, line_array := [(2, 3)] }] 1).row_array,
      rowWellFormed r.line_array := by
    intro r hr
    simp at hr
    subst hr
    exact ⟨by simp [rowChained], by intro l hl; simp at hl; subst hl; norm_num⟩
  exact ⟨⟨rfl, hwa, hwb⟩,
    gcode_pocket_subtract_row_invariant _ _ rfl hwa hwb⟩

/-!
## Scanline pairing and nudging (C4)
-/

/-- In a sorted crossing list every consecutive pair is ordered. -/
theorem evenPairs_le : ∀ xs : List ℚ, List.Chain' (fun u v => u ≤ v) xs →
    ∀ p ∈ evenPairs xs, p.1 ≤ p.2 := by
  intro xs
  induction xs using evenPairs.induct with
  | case1 a b rest ih =>
    intro hs p hp
    rw [List.chain'_cons] at hs
    rcases List.mem_cons.mp hp with hp | hp
    · subst hp
      exact hs.1
    · exact ih (hs.2.tail) p hp
  | case2 xs h =>
    intro _ p hp
    cases xs with
    | nil => simp [evenPairs] at hp
    | cons a t =>
      cases t with
      | nil => simp [evenPairs] at hp
      | cons b r => exact absurd rfl (h a b r)

/-- The line-generation loop equals filtering the consecutive pairs by the
width test and nudging the survivors. -/
theorem prepRow_eq (d : ℚ) : ∀ xs : List ℚ,
    prepRow d xs =
      ((evenPairs xs).filter (fun p => decide (d < |p.2 - p.1|))).map
        (fun p => (p.1 + d / 10, p.2 - d / 10)) := by
  intro xs
  induction xs using evenPairs.induct with
  | case1 a b rest ih =>
    have habs : |a - b| = |b - a| := abs_sub_comm a b
    by_cases h : d < |b - a| <;>
      simp [prepRow, evenPairs, habs, h, ih, List.filter_cons]
  | case2 xs h =>
    cases xs with
    | nil => simp [prepRow, evenPairs]
    | cons a t =>
      cases t with
      | nil => simp [prepRow, evenPairs]
      | cons b r => exact absurd rfl (h a b r)

/-- C4: on a sorted scanline crossing list, a consecutive crossing pair is
kept exactly when its raw width exceeds the tool diameter strictly; every
kept pair is stored as (a + 0.1 d, b - 0.1 d), its stored width equals the
raw width minus 0.2 d, and the number of stored intervals (the seg_num
increments of this scanline) equals the number of kept pairs. -/
theorem gcode_pocket_prep_keep_and_nudge (d : ℚ) (xs : List ℚ)
    (hs : List.Chain' (fun u v => u ≤ v) xs) :
    prepRow d xs =
      ((evenPairs xs).filter (fun p => decide (d < |p.2 - p.1|))).map
        (fun p => (p.1 + d / 10, p.2 - d / 10)) ∧
    (∀ p ∈ (evenPairs xs).filter (fun p => decide (d < |p.2 - p.1|)),
      (p.2 - d / 10) - (p.1 + d / 10) = |p.2 - p.1| - d / 5) ∧
    (prepRow d xs).length =
      ((evenPairs xs).filter (fun p => decide (d < |p.2 - p.1|))).length := by
  refine ⟨prepRow_eq d xs, ?_, ?_⟩
  · intro p hp
    have hmem : p ∈ evenPairs xs := List.mem_of_mem_filter hp
    have hle : p.1 ≤ p.2 := evenPairs_le xs hs p hmem
    rw [abs_of_nonneg (by linarith : (0 : ℚ) ≤ p.2 - p.1)]
    ring
  · rw [prepRow_eq d xs, List.length_map]

/-- C4 witness: the crossing list (0, 2, 3, 7/2) with tool diameter 1:
the pair (0, 2) is kept and nudged, the pair (3, 7/2) is too narrow. -/
theorem gcode_pocket_prep_keep_and_nudge_witness :
    List.Chain' (fun u v => u ≤ v) [(0 : ℚ), 2, 3, 7 / 2] ∧
    (prepRow 1 [(0 : ℚ), 2, 3, 7 / 2] =
      ((evenPairs [(0 : ℚ), 2, 3, 7 / 2]).filter
        (fun p => decide ((1 : ℚ) < |p.2 - p.1|))).map
        (fun p => (p.1 + 1 / 10, p.2 - 1 / 10)) ∧
     (∀ p ∈ (evenPairs [(0 : ℚ), 2, 3, 7 / 2]).filter
        (fun p => decide ((1 : ℚ) < |p.2 - p.1|)),
       (p.2 - 1 / 10) - (p.1 + 1 / 10) = |p.2 - p.1| - 1 / 5) ∧
     (prepRow 1 [(0 : ℚ), 2, 3, 7 / 2]).length =
      ((evenPairs [(0 : ℚ), 2, 3, 7 / 2]).filter
        (fun p => decide ((1 : ℚ) < |p.2 - p.1|))).length) := by
  have hs : List.Chain' (fun u v => u ≤ v) [(0 : ℚ), 2, 3, 7 / 2] := by
    rw [List.chain'_cons, List.chain'_cons, List.chain'_cons]
    refine ⟨by norm_num, by norm_num, by norm_num, by simp⟩
  exact ⟨hs, gcode_pocket_prep_keep_and_nudge 1 [(0 : ℚ), 2, 3, 7 / 2] hs⟩

/-!
## Temporal structure of the motion stream (C5)
-/

/-- No event of the list is a feed-line (cut) motion. -/
def cutFreeEvents (es : List GEvent) : Prop :=
  ∀ e ∈ es, ∀ x y : ℚ, e ≠ GEvent.line2d x y

/-- The approached entry point and the cut target belong together: they are
the two endpoints of one stored interval of a row of the pocket whose y is
the cut's y, ordered by that row's zig-zag direction - on an even-indexed
row the tool enters at the interval's first endpoint and cuts to its
second, on an odd-indexed row it enters at the second and cuts to the
first (the near endpoint relative to the row's direction). -/
def cutProvenance (pocket : Pocket) (xnear xcut yv : ℚ) : Prop :=
  ∃ ir ∈ pocket.row_array.enum, ir.2.y = yv ∧
    ((ir.1 % 2 = 0 ∧ (xnear, xcut) ∈ ir.2.line_array) ∨
     (¬ ir.1 % 2 = 0 ∧ (xcut, xnear) ∈ ir.2.line_array))

/-- Every cut motion of the stream is immediately preceded by the full
approach sequence for its own y coordinate, with the rapid-move target tied
to the cut by Q: however the stream is split at a feed-line event, the part
before it ends with retract, rapid move to a point xnear at the cut's y
with Q xnear x y, the plunge exactly under the rapid-depth condition, and
the descend. -/
def precededByApproach (ztraverse depth rapid_depth : ℚ) (Q : ℚ → ℚ → ℚ → Prop)
    (es : List GEvent) : Prop :=
  ∀ (l1 : List GEvent) (x yv : ℚ) (l2 : List GEvent),
    es = l1 ++ GEvent.line2d x yv :: l2 →
    ∃ (l0 : List GEvent) (xnear : ℚ),
      l1 = l0 ++ approachEvents ztraverse depth rapid_depth yv xnear ∧ Q xnear x yv

theorem approachEvents_cutFree (ztraverse depth rapid_depth yrow xnear : ℚ) :
    cutFreeEvents (approachEvents ztraverse depth rapid_depth yrow xnear) := by
  intro e he x y
  unfold approachEvents at he
  split_ifs at he <;> fin_cases he <;> simp

theorem pba_of_cutFree (ztraverse depth rapid_depth : ℚ) (Q : ℚ → ℚ → ℚ → Prop)
    (es : List GEvent) (h : cutFreeEvents es) :
    precededByApproach ztraverse depth rapid_depth Q es := by
  intro l1 x y l2 heq
  exfalso
  refine h (GEvent.line2d x y) ?_ x y rfl
  rw [heq]
  simp

theorem pba_cons (ztraverse depth rapid_depth : ℚ) (Q : ℚ → ℚ → ℚ → Prop) (e : GEvent)
    (es : List GEvent) (he : ∀ x y : ℚ, e ≠ GEvent.line2d x y)
    (h : precededByApproach ztraverse depth rapid_depth Q es) :
    precededByApproach ztraverse depth rapid_depth Q (e :: es) := by
  intro l1 x y l2 heq
  cases l1 with
  | nil =>
    simp only [List.nil_append, List.cons.injEq] at heq
    exact absurd heq.1 (he x y)
  | cons hd tl =>
    rw [List.cons_append, List.cons.injEq] at heq
    obtain ⟨h1, h2⟩ := heq
    subst h1
    obtain ⟨l0, xn, hl0, hq⟩ := h tl x y l2 h2
    exact ⟨e :: l0, xn, by rw [List.cons_append, hl0], hq⟩

theorem pba_append_cutFree (ztraverse depth rapid_depth : ℚ) (Q : ℚ → ℚ → ℚ → Prop)
    (u es : List GEvent) (hu : cutFreeEvents u)
    (h : precededByApproach ztraverse depth rapid_depth Q es) :
    precededByApproach ztraverse depth rapid_depth Q (u ++ es) := by
  induction u with
  | nil => simpa
  | cons e u ih =>
    rw [List.cons_append]
    refine pba_cons _ _ _ _ e _ (fun x y => hu e (List.mem_cons_self e u) x y) ?_
    exact ih (fun e' he' => hu e' (List.mem_cons_of_mem e he'))

theorem pba_block (ztraverse depth rapid_depth : ℚ) (Q : ℚ → ℚ → ℚ → Prop)
    (yrow xnear xfar : ℚ) (es : List GEvent) (hQb : Q xnear xfar yrow)
    (h : precededByApproach ztraverse depth rapid_depth Q es) :
    precededByApproach ztraverse depth rapid_depth Q
      (cutBlockEvents ztraverse depth rapid_depth yrow xnear xfar ++ es) := by
  intro l1 x y l2 heq
  rw [cutBlockEvents, List.append_assoc] at heq
  rcases List.append_eq_append_iff.mp heq with ⟨a, ha1, ha2⟩ | ⟨c, hc1, hc2⟩
  · cases a with
    | nil =>
      rw [List.append_nil] at ha1
      simp only [List.nil_append, List.cons_append, List.cons.injEq, GEvent.line2d.injEq] at ha2
      obtain ⟨⟨hx, hy⟩, -⟩ := ha2
      subst hx; subst hy
      exact ⟨[], xnear, by rw [ha1, List.nil_append], hQb⟩
    | cons a0 a2 =>
      simp only [List.cons_append, List.singleton_append, List.cons.injEq] at ha2
      obtain ⟨ha0, hes⟩ := ha2
      have hes2 : es = a2 ++ GEvent.line2d x y :: l2 := by simpa using hes
      obtain ⟨l0, xn, hl0, hq⟩ := h a2 x y l2 hes2
      refine ⟨approachEvents ztraverse depth rapid_depth yrow xnear ++ a0 :: l0, xn, ?_, hq⟩
      rw [ha1, hl0, List.append_assoc, List.cons_append]
  · cases c with
    | nil =>
      rw [List.append_nil] at hc1
      simp only [List.nil_append, List.singleton_append, List.cons.injEq,
        GEvent.line2d.injEq] at hc2
      obtain ⟨⟨hx, hy⟩, -⟩ := hc2
      subst hx; subst hy
      exact ⟨[], xnear, by rw [hc1, List.nil_append], hQb⟩
    | cons c0 c2 =>
      exfalso
      have hc0mem : c0 ∈ approachEvents ztraverse depth rapid_depth yrow xnear := by
        rw [hc1]
        simp
      simp only [List.cons_append, List.cons.injEq] at hc2
      exact approachEvents_cutFree ztraverse depth rapid_depth yrow xnear c0 hc0mem x y
        hc2.1.symm

theorem pba_flatMapBlocks (ztraverse depth rapid_depth : ℚ) (Q : ℚ → ℚ → ℚ → Prop)
    (f : ℚ × ℚ → List GEvent) :
    ∀ (ls : List (ℚ × ℚ)),
      (∀ l ∈ ls, f l = [] ∨ ∃ yrow xn xf,
        f l = cutBlockEvents ztraverse depth rapid_depth yrow xn xf ∧ Q xn xf yrow) →
      ∀ es : List GEvent,
        precededByApproach ztraverse depth rapid_depth Q es →
        precededByApproach ztraverse depth rapid_depth Q (ls.flatMap f ++ es) := by
  intro ls
  induction ls with
  | nil => intro _ es h; simpa
  | cons l ls ih =>
    intro hf es h
    rw [List.flatMap_cons, List.append_assoc]
    rcases hf l (List.mem_cons_self l ls) with h0 | ⟨yrow, xn, xf, hb, hq⟩
    · rw [h0, List.nil_append]
      exact ih (fun l' hl' => hf l' (List.mem_cons_of_mem l hl')) es h
    · rw [hb]
      exact pba_block _ _ _ _ _ _ _ _ hq
        (ih (fun l' hl' => hf l' (List.mem_cons_of_mem l hl')) es h)

theorem pba_rowEvents (ztraverse depth rapid_depth diameter : ℚ) (Q : ℚ → ℚ → ℚ → Prop)
    (i : ℕ) (row : PocketRow)
    (hQ : ∀ l ∈ row.line_array,
      (i % 2 = 0 → Q l.1 l.2 row.y) ∧ (¬ i % 2 = 0 → Q l.2 l.1 row.y))
    (es : List GEvent) (h : precededByApproach ztraverse depth rapid_depth Q es) :
    precededByApproach ztraverse depth rapid_depth Q
      (rowEvents ztraverse depth rapid_depth diameter i row ++ es) := by
  rw [rowEvents]
  split_ifs with hp
  · refine pba_flatMapBlocks _ _ _ _ _ _ ?_ es h
    intro l hl
    by_cases hw : |l.1 - l.2| < diameter
    · left; simp [hw]
    · right; exact ⟨row.y, l.1, l.2, by simp [hw], (hQ l hl).1 hp⟩
  · refine pba_flatMapBlocks _ _ _ _ _ _ ?_ es h
    intro l hl
    have hl2 : l ∈ row.line_array := List.mem_reverse.mp hl
    by_cases hw : |l.1 - l.2| < diameter
    · left; simp [hw]
    · right; exact ⟨row.y, l.2, l.1, by simp [hw], (hQ l hl2).2 hp⟩

theorem pba_rows (ztraverse depth rapid_depth diameter : ℚ) (Q : ℚ → ℚ → ℚ → Prop) :
    ∀ (irs : List (ℕ × PocketRow)),
      (∀ ir ∈ irs, ∀ l ∈ ir.2.line_array,
        (ir.1 % 2 = 0 → Q l.1 l.2 ir.2.y) ∧ (¬ ir.1 % 2 = 0 → Q l.2 l.1 ir.2.y)) →
      ∀ es : List GEvent,
        precededByApproach ztraverse depth rapid_depth Q es →
        precededByApproach ztraverse depth rapid_depth Q
          (irs.flatMap (fun ir => rowEvents ztraverse depth rapid_depth diameter ir.1 ir.2) ++
            es) := by
  intro irs
  induction irs with
  | nil => intro _ es h; simpa
  | cons ir irs ih =>
    intro hQ es h
    rw [List.flatMap_cons, List.append_assoc]
    refine pba_rowEvents _ _ _ _ _ _ _ (hQ ir (List.mem_cons_self ir irs)) _ ?_
    exact ih (fun ir' hir' => hQ ir' (List.mem_cons_of_mem ir hir')) es h

/-- C5: in the stream emitted by gcode_pocket_make, every feed-line (cut)
motion is immediately preceded by the per-interval sequence retract to the
traverse height, rapid 2-D move at the cut's own y to the cut interval's
near endpoint - the entry point and the cut target are the two endpoints of
one stored interval of a row with that y, ordered by the row's zig-zag
direction (cutProvenance) - rapid plunge to the rapid-safe depth exactly
when rapid_depth ≥ depth - GCODE_PRECISION, and feed descend to the target
depth; and when anything is emitted at all (seg_num ≠ 0), the stream ends
with one final retract after all rows. -/
theorem gcode_pocket_make_approach_before_cut (p : Pocket)
    (depth rapid_depth diameter ztraverse : ℚ) (h : p.seg_num ≠ 0) :
    precededByApproach ztraverse depth rapid_depth (cutProvenance p)
      (gcode_pocket_make p depth rapid_depth diameter ztraverse) ∧
    (gcode_pocket_make p depth rapid_depth diameter ztraverse).getLast? =
      some (GEvent.retract ztraverse) := by
  constructor
  · rw [gcode_pocket_make, if_neg h]
    refine pba_cons _ _ _ _ _ _ (by intro x y; simp) ?_
    refine pba_rows _ _ _ _ _ _ ?_ [GEvent.retract ztraverse] ?_
    · intro ir hir l hl
      constructor
      · intro hpar
        exact ⟨ir, hir, rfl, Or.inl ⟨hpar, by simpa using hl⟩⟩
      · intro hpar
        exact ⟨ir, hir, rfl, Or.inr ⟨hpar, by simpa using hl⟩⟩
    · refine pba_of_cutFree _ _ _ _ _ ?_
      intro e he x y
      simp at he
      subst he
      simp
  · rw [gcode_pocket_make, if_neg h, ← List.cons_append]
    exact List.getLast?_concat _

/-- C5 witness: the theorem applied to a concrete one-interval pocket. -/
theorem gcode_pocket_make_approach_before_cut_witness :
    (Pocket.mk 1 [{ y := 0, line_array := [(0, 10)] }] 1).seg_num ≠ 0 ∧
    (precededByApproach (1 / 2) (-1) (-1 / 10)
      (cutProvenance (Pocket.mk 1 [{ y := 0, line_array := [(0, 10)] }] 1))
      (gcode_pocket_make (Pocket.mk 1 [{ y := 0, line_array := [(0, 10)] }] 1)
        (-1) (-1 / 10) 1 (1 / 2)) ∧
     (gcode_pocket_make (Pocket.mk 1 [{ y := 0, line_array := [(0, 10)] }] 1)
        (-1) (-1 / 10) 1 (1 / 2)).getLast? = some (GEvent.retract (1 / 2))) :=
  ⟨by simp, gcode_pocket_make_approach_before_cut _ (-1) (-1 / 10) 1 (1 / 2) (by simp)⟩

/-!
## Cut extraction and visit order (C6)
-/

/-- Projects the feed-line (cut) motions out of the stream, keeping their
target coordinates. -/
def cutOf : GEvent → Option (ℚ × ℚ)
  | GEvent.line2d x y => some (x, y)
  | _ => none

@[simp] theorem cutOf_comment (d : ℚ) : cutOf (GEvent.comment d) = none := rfl

@[simp] theorem cutOf_retract (z : ℚ) : cutOf (GEvent.retract z) = none := rfl

@[simp] theorem cutOf_move2d (x y : ℚ) : cutOf (GEvent.move2d x y) = none := rfl

@[simp] theorem cutOf_plummet (z : ℚ) : cutOf (GEvent.plummet z) = none := rfl

@[simp] theorem cutOf_descend (z : ℚ) : cutOf (GEvent.descend z) = none := rfl

@[simp] theorem cutOf_line2d (x y : ℚ) : cutOf (GEvent.line2d x y) = some (x, y) := rfl

theorem filterMap_cutOf_cutBlock (ztraverse depth rapid_depth yrow xnear xfar : ℚ) :
    (cutBlockEvents ztraverse depth rapid_depth yrow xnear xfar).filterMap cutOf =
      [(xfar, yrow)] := by
  rw [cutBlockEvents, approachEvents]
  split_ifs <;> simp

theorem filterMap_cutOf_flatMapLine (ztraverse depth rapid_depth diameter yrow : ℚ)
    (near far : ℚ × ℚ → ℚ) :
    ∀ ls : List (ℚ × ℚ),
      ((ls.flatMap (fun l => if |l.1 - l.2| < diameter then []
        else cutBlockEvents ztraverse depth rapid_depth yrow (near l) (far l))).filterMap
          cutOf) =
      (ls.filter (fun l => decide (¬ |l.1 - l.2| < diameter))).map (fun l => (far l, yrow)) := by
  intro ls
  induction ls with
  | nil => simp
  | cons l ls ih =>
    rw [List.flatMap_cons, List.filterMap_append, ih, List.filter_cons]
    by_cases hw : |l.1 - l.2| < diameter
    · simp [hw]
    · simp [hw, filterMap_cutOf_cutBlock]

theorem filterMap_cutOf_rowEvents (ztraverse depth rapid_depth diameter : ℚ) (i : ℕ)
    (row : PocketRow) :
    (rowEvents ztraverse depth rapid_depth diameter i row).filterMap cutOf =
      ((if i % 2 = 0 then row.line_array else row.line_array.reverse).filter
        (fun l => decide (¬ |l.1 - l.2| < diameter))).map
        (fun l => ((if i % 2 = 0 then l.2 else l.1), row.y)) := by
  rw [rowEvents]
  split_ifs with hp
  · exact filterMap_cutOf_flatMapLine ztraverse depth rapid_depth diameter row.y
      Prod.fst Prod.snd row.line_array
  · exact filterMap_cutOf_flatMapLine ztraverse depth rapid_depth diameter row.y
      Prod.snd Prod.fst row.line_array.reverse

theorem filterMap_cutOf_rows (ztraverse depth rapid_depth diameter : ℚ) :
    ∀ irs : List (ℕ × PocketRow),
      ((irs.flatMap (fun ir => rowEvents ztraverse depth rapid_depth diameter ir.1
        ir.2)).filterMap cutOf) =
      irs.flatMap (fun ir =>
        ((if ir.1 % 2 = 0 then ir.2.line_array else ir.2.line_array.reverse).filter
          (fun l => decide (¬ |l.1 - l.2| < diameter))).map
          (fun l => ((if ir.1 % 2 = 0 then l.2 else l.1), ir.2.y))) := by
  intro irs
  induction irs with
  | nil => simp
  | cons ir irs ih =>
    rw [List.flatMap_cons, List.filterMap_append, ih, filterMap_cutOf_rowEvents,
      List.flatMap_cons]

/-- C6: the sequence of cut motions emitted by gcode_pocket_make visits the
rows in index order 0..row_num-1, walks an even-indexed row's stored
intervals in ascending stored order cutting to each interval's second
endpoint, walks an odd-indexed row's intervals in descending stored order
cutting to each interval's first endpoint, and omits every interval whose
width is strictly below the tool diameter. -/
theorem gcode_pocket_make_visit_order (p : Pocket)
    (depth rapid_depth diameter ztraverse : ℚ) :
    (gcode_pocket_make p depth rapid_depth diameter ztraverse).filterMap cutOf =
      if p.seg_num = 0 then []
      else p.row_array.enum.flatMap (fun ir =>
        ((if ir.1 % 2 = 0 then ir.2.line_array else ir.2.line_array.reverse).filter
          (fun l => decide (¬ |l.1 - l.2| < diameter))).map
          (fun l => ((if ir.1 % 2 = 0 then l.2 else l.1), ir.2.y))) := by
  rw [gcode_pocket_make]
  split_ifs with hseg
  · simp
  · rw [List.filterMap_cons]
    simp only [cutOf_comment]
    rw [List.filterMap_append, filterMap_cutOf_rows]
    simp

/-!
## Empty stream on zero segments (C7)
-/

/-- C7: when the pocket grid's segment count is zero, gcode_pocket_make
emits no events at all - no pass-depth comment, no retract, no move. -/
theorem gcode_pocket_make_empty_when_no_segments (p : Pocket)
    (depth rapid_depth diameter ztraverse : ℚ) (h : p.seg_num = 0) :
    gcode_pocket_make p depth rapid_depth diameter ztraverse = [] := by
  rw [gcode_pocket_make, if_pos h]

/-- C7 witness: an empty pocket produces the empty stream. -/
theorem gcode_pocket_make_empty_when_no_segments_witness :
    (Pocket.mk 1 [] 0).seg_num = 0 ∧
    gcode_pocket_make (Pocket.mk 1 [] 0) 0 0 1 1 = [] :=
  ⟨rfl, gcode_pocket_make_empty_when_no_segments _ 0 0 1 1 rfl⟩

/-!
## Capacity behaviour of the scan buffers (C8)
-/

/-- A family of scanline crossing lists: n pairs of crossings spaced so
that every pair is kept by the width test for tool diameter 1/2. -/
def wideCrossings : ℕ → List ℚ
  | 0 => []
  | n + 1 => (4 * n : ℚ) :: ((4 * n : ℚ) + 1) :: wideCrossings n

theorem wideCrossings_length (n : ℕ) : (wideCrossings n).length = 2 * n := by
  induction n with
  | zero => simp [wideCrossings]
  | succ k ih =>
    rw [wideCrossings]
    simp [ih]
    omega

theorem prepRow_wideCrossings_length (n : ℕ) :
    (prepRow (1 / 2) (wideCrossings n)).length = n := by
  induction n with
  | zero => simp [wideCrossings, prepRow]
  | succ k ih =>
    rw [wideCrossings, prepRow]
    have habs : |((4 * k : ℚ) + 1) - 4 * k| = 1 := by
      have h1 : ((4 * k : ℚ) + 1) - 4 * k = 1 := by ring
      rw [h1]
      norm_num
    rw [habs]
    norm_num [ih]

/-- C8 (amended): the line-generation loop of gcode_pocket_prep performs no
capacity check whatsoever - for every n there is a scanline crossing list
that produces exactly n stored intervals, with every interval stored and no
failure surfaced; nothing bounds the count at 64 (in the C code the
corresponding writes silently overrun the fixed 64-entry buffers). -/
theorem gcode_pocket_prep_no_capacity_bound :
    ∀ n : ℕ, ∃ xs : List ℚ, xs.length = 2 * n ∧ (prepRow (1 / 2) xs).length = n :=
  fun n => ⟨wideCrossings n, wideCrossings_length n, prepRow_wideCrossings_length n⟩

/-- C8 counterexample: a scanline with 130 crossings - exceeding the
64-entry crossing capacity - is processed to completion: all 65 intervals
are produced (exceeding the 64-entry row capacity as well) and no error of
any kind is surfaced, refuting the hard-failure claim. -/
theorem c8_counterexample :
    (wideCrossings 65).length = 130 ∧
    (prepRow (1 / 2) (wideCrossings 65)).length = 65 ∧
    ¬ (prepRow (1 / 2) (wideCrossings 65)).length ≤ 64 := by
  refine ⟨by rw [wideCrossings_length], by rw [prepRow_wideCrossings_length], ?_⟩
  rw [prepRow_wideCrossings_length]
  norm_num

/-!
## Absence of grid validation in subtraction (C9)
-/

/-- C9 (amended): gcode_pocket_subtract performs no structural validation
at all: the resolution and segment count of the island grid play no role in
the result - a grid with any resolution whatsoever is processed identically,
and grid A is mutated rather than the call being rejected. -/
theorem gcode_pocket_subtract_ignores_b_metadata (pocket_a pocket_b : Pocket)
    (r : ℚ) (s : ℕ) :
    gcode_pocket_subtract pocket_a
        { resolution := r, row_array := pocket_b.row_array, seg_num := s } =
      gcode_pocket_subtract pocket_a pocket_b := rfl

/-- Pocket grid of resolution 1 for the mismatched-grids counterexample. -/
def c9PocketA : Pocket :=
  { resolution := 1, row_array := [{ y := 0, line_array := [(0, 10)] }], seg_num := 1 }

/-- Island grid of resolution 2 - mismatched with c9PocketA. -/
def c9PocketB : Pocket :=
  { resolution := 2, row_array := [{ y := 0, line_array := [(4, 6)] }], seg_num := 1 }

theorem c9_subtract_eval :
    ((gcode_pocket_subtract c9PocketA c9PocketB).row_array.getD 0 dfltRow).line_array =
      [(0, 4), (6, 10)] := by
  norm_num [gcode_pocket_subtract, subRow, subLine, GCODE_PRECISION, c9PocketA, c9PocketB,
    List.getD]

/-- C9 counterexample: the grids have differing resolutions, yet the call
is not rejected: grid A is mutated (its single interval is split in two),
so no rejection-before-mutation occurs. -/
theorem c9_counterexample :
    c9PocketA.resolution ≠ c9PocketB.resolution ∧
    gcode_pocket_subtract c9PocketA c9PocketB ≠ c9PocketA ∧
    ((gcode_pocket_subtract c9PocketA c9PocketB).row_array.getD 0 dfltRow).line_array =
      [(0, 4), (6, 10)] := by
  refine ⟨by norm_num [c9PocketA, c9PocketB], ?_, c9_subtract_eval⟩
  intro heq
  have hlines : ((gcode_pocket_subtract c9PocketA c9PocketB).row_array.getD 0 dfltRow).line_array =
      (c9PocketA.row_array.getD 0 dfltRow).line_array := by rw [heq]
  rw [c9_subtract_eval] at hlines
  simp [c9PocketA, List.getD] at hlines

/-!
## Positive segment count with no cut motion (C10)
-/

/-- A pocket built by gcode_pocket_prep from a single scanline whose only
crossing pair (0, 11/10) has raw width 11/10, strictly between the tool
diameter 1 and 1.2 times the diameter. -/
def c10Pocket : Pocket := gcode_pocket_prep 1 (fun _ => [0, 11 / 10]) 1 0 0

set_option maxHeartbeats 2000000 in
theorem c10Pocket_eq :
    c10Pocket = Pocket.mk 1 [PocketRow.mk 0 [(1 / 10, 1)]] 1 := by
  have habs2 : |(11 : ℚ) / 10| = 11 / 10 := abs_of_nonneg (by norm_num)
  rw [c10Pocket, gcode_pocket_prep]
  norm_num [Rat.floor_def', List.range_succ, List.range_zero, List.insertionSort,
    List.orderedInsert, removeDuplicateScalars, prepRow, GCODE_PRECISION, habs2]

/-- C10: the pair is kept by gcode_pocket_prep (raw width 11/10 exceeds the
diameter 1), so seg_num = 1 > 0, but its nudged width 9/10 is below the
diameter, so gcode_pocket_make skips the only interval - yet the stream is
not empty: it still carries the pass-depth comment and the final retract of
the pass, while containing no feed-line (cut) motion at all. -/
theorem gcode_pocket_make_positive_segments_no_cut :
    (1 : ℚ) < |(11 / 10 : ℚ) - 0| ∧
    |(11 / 10 : ℚ) - 0| < (12 / 10) * 1 ∧
    c10Pocket.seg_num = 1 ∧
    (c10Pocket.row_array.getD 0 dfltRow).line_array = [(1 / 10, 1)] ∧
    |(1 / 10 : ℚ) - 1| < 1 ∧
    gcode_pocket_make c10Pocket (-1) 0 1 (1 / 2) =
      [GEvent.comment (-1), GEvent.retract (1 / 2)] ∧
    (gcode_pocket_make c10Pocket (-1) 0 1 (1 / 2)).filterMap cutOf = [] := by
  have h11 : |(11 : ℚ) / 10 - 0| = 11 / 10 := by
    rw [sub_zero]
    exact abs_of_nonneg (by norm_num)
  have h9 : |(1 : ℚ) / 10 - 1| < 1 := by
    rw [show (1 : ℚ) / 10 - 1 = -(9 / 10) by norm_num, abs_neg,
      abs_of_nonneg (by norm_num : (0 : ℚ) ≤ 9 / 10)]
    norm_num
  have heq := c10Pocket_eq
  have hmake : gcode_pocket_make c10Pocket (-1) 0 1 (1 / 2) =
      [GEvent.comment (-1), GEvent.retract (1 / 2)] := by
    rw [heq, gcode_pocket_make]
    norm_num [rowEvents, List.enum, List.enumFrom, h9]
    intro hcontra
    exfalso
    rw [abs_of_nonneg (by norm_num : (0 : ℚ) ≤ 9 / 10)] at hcontra
    norm_num at hcontra
  refine ⟨by rw [h11]; norm_num, by rw [h11]; norm_num, by rw [heq],
    by rw [heq]; simp [List.getD], h9, hmake, by rw [hmake]; simp⟩
